/-
Verification of the row-permutation algebra and the derivation pipeline of a
change-ringing composition editor.

The Rust sources are embedded shallowly:
  * `Bell` is its zero-based index (a `Nat`), `Stage` is the number of bells,
    and `Row` is the underlying vector of bells (`Vec<Bell>`), i.e. `List Nat`.
  * fallible constructors return `Except`.
  * `usize` arithmetic is modelled by `Nat`; the claims under scrutiny stay
    within the bit-width bounds stated in the source, so wrap-around is never
    reached on the inputs the claims quantify over.
Each definition mirrors one function of the source (files `src/core/src/row.rs`
and `src/proj/src/derived_state.rs`); the handful of definitions whose source
file is absent from the provided tree (`bell.rs`, `stage.rs`, `utils.rs`) are
marked `Modelled from the spec:` in their doc comment.
-/
import Mathlib

set_option maxHeartbeats 1000000

/-- A bell, represented by its zero-based index (`Bell::index()` in `bell.rs`). -/
abbrev Bell : Type := Nat

/-- The number of bells; `Stage` wraps a `usize` and `Row::stage` is
`self.bells.len().into()`. -/
abbrev Stage : Type := Nat

/-- A row: the underlying `Vec<Bell>` of `struct Row { bells: Vec<Bell> }`. -/
abbrev Row : Type := List Nat

/-- Modelled from the spec: the conventional bell-name alphabet used by
`Bell::from_name` in the absent source file `bell.rs`.  The spec says a `Bell`
"maps bidirectionally to a conventional display name (`1`-`9`, `0` for the
tenth, then letters)"; the letter tail is the conventional one (skipping the
characters already used and the easily-confused `I`/`O`). -/
def bellNames : List Char :=
  ['1', '2', '3', '4', '5', '6', '7', '8', '9', '0', 'E', 'T', 'A', 'B', 'C',
   'D', 'F', 'G', 'H', 'J', 'K', 'L', 'M', 'N', 'P', 'Q', 'R', 'S', 'U', 'V',
   'W', 'X', 'Y', 'Z']

/-- Modelled from the spec: `Bell::from_name` (source file `bell.rs` is not in
the provided tree).  "Construction from a display character fails (no result)
for unrecognized characters." -/
def Bell.from_name (c : Char) : Option Bell :=
  bellNames.findIdx? (fun x => x == c)

/-- `InvalidRowError` from `row.rs`: the only two ways a row can be invalid. -/
inductive InvalidRowError : Type where
  | DuplicateBell : Bell → InvalidRowError
  | BellOutOfStage : Bell → Stage → InvalidRowError
deriving DecidableEq, Repr

/-- `IncompatibleStages` from `row.rs`, carrying both offending stages. -/
structure IncompatibleStages : Type where
  lhs_stage : Stage
  rhs_stage : Stage
deriving DecidableEq, Repr

/-- `IncompatibleStages::test_err`: `Ok(())` iff the stages are equal, else the
error carrying both stages. -/
def IncompatibleStages.test_err (lhs_stage rhs_stage : Stage) :
    Except IncompatibleStages Unit :=
  if lhs_stage = rhs_stage then .ok () else .error ⟨lhs_stage, rhs_stage⟩

/-- `Row::stage`, i.e. `self.bells.len().into()`. -/
def Row.stage (r : Row) : Stage := r.length

/-- `Row::rounds`: bells `0..stage` in ascending order. -/
def Row.rounds (stage : Stage) : Row := List.range stage

/-- `Row::backrounds`: bells `(0..stage).rev()`. -/
def Row.backrounds (stage : Stage) : Row := (List.range stage).reverse

/-- `Row::queens`: `(0..stage).step_by(2)` followed by `(1..stage).step_by(2)`
(the even indices in order, then the odd indices in order). -/
def Row.queens (stage : Stage) : Row :=
  ((List.range ((stage + 1) / 2)).map (fun k => 2 * k)) ++
    ((List.range (stage / 2)).map (fun k => 2 * k + 1))

/-- `Row::fast_hash`: `accum = 0; multiplier = 1;` then for each bell `b`,
`accum *= b.index() * multiplier; multiplier *= stage`. -/
def Row.fast_hash (r : Row) : Nat :=
  (r.foldl (fun acc b => (acc.1 * (b * acc.2), acc.2 * r.length)) (0, 1)).1

/-- `Row::is_rounds`: every bell's index equals its position. -/
def Row.is_rounds (r : Row) : Bool :=
  r.enum.all (fun p => p.2 == p.1)

/-- `Row::mul_unchecked`: use `rhs` to permute `self`,
`rhs.bells().map(|b| self[b.index()])`.  (Indexing a valid row never goes out
of range; `getD` supplies the irrelevant total default.) -/
def Row.mul_unchecked (x rhs : Row) : Row :=
  rhs.map (fun b => x.getD b 0)

/-- `impl Mul for &Row`: test the stages with `IncompatibleStages::test_err`,
then delegate to `mul_unchecked`. -/
def Row.mul (x rhs : Row) : Except IncompatibleStages Row :=
  match IncompatibleStages.test_err (Row.stage x) (Row.stage rhs) with
  | .error e => .error e
  | .ok _ => .ok (Row.mul_unchecked x rhs)

/-- `impl Not for &Row`: start from `vec![Bell::from_index(0); n]` and place,
for each position `i`, the bell of index `i` at position `row[i].index()`. -/
def Row.inv (r : Row) : Row :=
  r.enum.foldl (fun inv_bells p => inv_bells.set p.2 p.1)
    (List.replicate r.length 0)

/-- The loop of `Row::check_validity`: scan the bells left to right against a
boolean checklist, failing on the first bell that is out of range or already
marked. -/
def Row.checkAux (stage : Stage) : List Bool → List Nat → Option InvalidRowError
  | _, [] => none
  | checklist, b :: rest =>
    if hb : b < checklist.length then
      if checklist.get ⟨b, hb⟩ then some (.DuplicateBell b)
      else Row.checkAux stage (checklist.set b true) rest
    else some (.BellOutOfStage b stage)

/-- `Row::check_validity`: run the checklist scan starting from
`vec![false; stage]`; return the row if no bell raised an error. -/
def Row.check_validity (r : Row) : Except InvalidRowError Row :=
  match Row.checkAux (Row.stage r) (List.replicate (Row.stage r) false) r with
  | some e => .error e
  | none => .ok r

/-- `Row::from_vec`: check validity of the given bells. -/
def Row.from_vec (bells : List Nat) : Except InvalidRowError Row :=
  Row.check_validity bells

/-- `Row::parse`: keep the characters that are valid bell names, in order, and
validate the result.  Strings are modelled as their character lists. -/
def Row.parse (s : List Char) : Except InvalidRowError Row :=
  Row.check_validity (s.filterMap Bell.from_name)

/-- The loop of `Row::closure` with an explicit fuel argument.  The source loop
is unbounded (`loop { push; if rounds return; row = row * orig }`); the
theorems below prove that `Stage!` fuel is always enough for a valid row, and
that any larger fuel yields the same list — i.e. the source loop terminates. -/
def Row.closureFuel (orig : Row) : Nat → Row → List Row
  | 0, _ => []
  | fuel + 1, row =>
    row ::
      (if Row.is_rounds row then []
       else Row.closureFuel orig fuel (Row.mul_unchecked row orig))

/-- `Row::closure`, run with the provably sufficient fuel `Stage!`. -/
def Row.closure (r : Row) : List Row :=
  Row.closureFuel r (Nat.factorial r.length) r

/-- The row invariant from the spec and `row.rs`: a bijection onto
`0..Stage` — no duplicate bells, and every bell below the stage. -/
def Row.valid (r : Row) : Prop :=
  r.Nodup ∧ ∀ b ∈ r, b < r.length

instance (r : Row) : Decidable (Row.valid r) := by
  unfold Row.valid
  exact inferInstance

example : Row.fast_hash [0, 1] = 0 := by decide
example : Row.fast_hash [1, 0] = 0 := by decide
example : Row.valid [1, 2, 0] := by decide
example : Row.closure [1, 2, 0] = [[1, 2, 0], [2, 0, 1], [0, 1, 2]] := by decide
example : Row.parse ('1' :: '1' :: '2' :: []) = .error (.DuplicateBell 0) := rfl
example : Row.mul [0, 1] [1, 0, 2] = .error ⟨2, 3⟩ := rfl
example : Row.inv [1, 2, 0] = [2, 0, 1] := by decide
example : Row.queens 5 = [0, 2, 4, 1, 3] := by decide

/-- `RowOrigin` from `derived_state.rs`: (part, fragment, row index). -/
structure RowOrigin : Type where
  part : Nat
  frag : Nat
  row : Nat
deriving DecidableEq, Repr

/-- `RowLocation` from `derived_state.rs`: a `RowOrigin` without the part. -/
structure RowLocation : Type where
  frag : Nat
  row : Nat
deriving DecidableEq, Repr

/-- `impl From<RowOrigin> for RowLocation`: drop the part index. -/
def RowLocation.ofOrigin (o : RowOrigin) : RowLocation :=
  ⟨o.frag, o.row⟩

/-- The derived `Ord` on `RowLocation` (fragment index, then row index),
as a boolean `le`.  The unit test `row_loc_ord` in `derived_state.rs` pins this
order down. -/
def locLe (a b : RowLocation) : Bool :=
  if a.frag < b.frag then true
  else if b.frag < a.frag then false
  else a.row ≤ b.row

/-- The derived lexicographic `Ord` on `Vec<RowLocation>`, as a boolean `le`. -/
def locListLe : List RowLocation → List RowLocation → Bool
  | [], _ => true
  | _ :: _, [] => false
  | a :: as, b :: bs => if a = b then locListLe as bs else locLe a b

/-- The derived lexicographic `Ord` on `Row = Vec<Bell>`, as a boolean `le`
(used by `flattened_rows.sort_by(|(_, r1), (_, r2)| r1.cmp(r2))`). -/
def rowLeB : List Nat → List Nat → Bool
  | [], _ => true
  | _ :: _, [] => false
  | a :: as, b :: bs => if a < b then true else if b < a then false else rowLeB as bs

/-- Insertion step of the stable sort model (see `sortBy`). -/
def orderedInsert {α : Type} (le : α → α → Bool) (x : α) : List α → List α
  | [] => [x]
  | y :: ys => if le x y then x :: y :: ys else y :: orderedInsert le x ys

/-- Model of Rust's stable `sort`/`sort_by`: a stable insertion sort.  For a
total preorder the output of any stable sort is uniquely determined, so this
is extensionally the sort the source performs. -/
def sortBy {α : Type} (le : α → α → Bool) : List α → List α
  | [] => []
  | x :: xs => orderedInsert le x (sortBy le xs)

/-- The state of the sweep loop in `DerivedState::gen_false_row_groups`:
the `HashSet` of finished groups (as an insertion-ordered duplicate-free list),
the current group, the last row seen, and the false-row counter. -/
structure ProveState : Type where
  false_rows : List (List RowLocation)
  current : List RowLocation
  last_row : Option (List Nat)
  num_false : Nat
deriving Repr

/-- `HashSet::insert`, on the insertion-ordered list model: a no-op when the
element is already present. -/
def insertSet (s : List (List RowLocation)) (g : List RowLocation) :
    List (List RowLocation) :=
  if g ∈ s then s else s ++ [g]

/-- The group-finishing block of `gen_false_row_groups`: when the current group
has more than one member, count its rows and insert its sorted contents into
the set; either way the current group is emptied. -/
def flushGroup (st : ProveState) : ProveState :=
  if 1 < st.current.length then
    { st with
      num_false := st.num_false + st.current.length
      false_rows := insertSet st.false_rows (sortBy locLe st.current)
      current := [] }
  else { st with current := [] }

/-- One iteration of the sweep loop of `gen_false_row_groups`: finish the
current group when the row value changes, then record the location of the
current pair. -/
def proveStep (st : ProveState) (p : RowOrigin × List Nat) : ProveState :=
  let st1 :=
    match st.last_row with
    | some l_r => if l_r ≠ p.2 then flushGroup st else st
    | none => st
  { st1 with
    last_row := some p.2
    current := st1.current ++ [RowLocation.ofOrigin p.1] }

/-- `DerivedState::gen_false_row_groups`: sort the flattened (origin, row)
pairs by row value, sweep them accumulating runs of equal rows, and finish the
trailing group after the loop.  Returns the distinct groups and the false-row
count. -/
def gen_false_row_groups (flattened_rows : List (RowOrigin × List Nat)) :
    List (List RowLocation) × Nat :=
  let sorted := sortBy (fun a b => rowLeB a.2 b.2) flattened_rows
  let final := sorted.foldl proveStep ⟨[], [], none, 0⟩
  let final2 := flushGroup final
  (final2.false_rows, final2.num_false)

/-- `FalseRowRange` from `derived_state.rs` (`end` is a reserved word in Lean,
so the field is called `stop`). -/
structure FalseRowRange : Type where
  start : Nat
  stop : Nat
  group : Nat
deriving DecidableEq, Repr

/-- `DerivedState::add_ranges`: zip the first and last groups of a meta-group
and record one inclusive range per paired location, with `start <= end`.  The
per-fragment `HashMap` is modelled as a flat list of (fragment, range) pairs. -/
def add_ranges (ranges : List (Nat × FalseRowRange))
    (start stop : List RowLocation) (group_id : Nat) :
    List (Nat × FalseRowRange) :=
  ranges ++
    (start.zip stop).map (fun p =>
      (p.1.frag, ⟨min p.1.row p.2.row, max p.1.row p.2.row, group_id⟩))

/-- The adjacency test of `coalesce_false_row_groups`: equal cardinality, and
every paired location in the same fragment with row indices differing by
exactly one. -/
def isAdjacent (group last_group : List RowLocation) : Bool :=
  group.length == last_group.length &&
    (group.zip last_group).all (fun p =>
      p.1.frag == p.2.frag && ((p.1.row : Int) - (p.2.row : Int)).natAbs == 1)

/-- One iteration of the walk in `coalesce_false_row_groups`.  State:
((ranges so far, group_id), last_group, first_group_in_meta_group). -/
def coalesceStep
    (st : (List (Nat × FalseRowRange) × Nat) × List RowLocation × List RowLocation)
    (group : List RowLocation) :
    (List (Nat × FalseRowRange) × Nat) × List RowLocation × List RowLocation :=
  if isAdjacent group st.2.1 then ((st.1.1, st.1.2), group, st.2.2)
  else ((add_ranges st.1.1 st.2.2 st.2.1 st.1.2, st.1.2 + 1), group, group)

/-- `DerivedState::coalesce_false_row_groups`: sort the groups, walk them
merging adjacent ones into meta-groups, emit ranges at each boundary and after
the loop, and return `(ranges, group_id + 1)`. -/
def coalesce_false_row_groups (false_rows : List (List RowLocation)) :
    List (Nat × FalseRowRange) × Nat :=
  let sorted := sortBy locListLe false_rows
  match sorted with
  | [] => ([], 0 + 1)
  | first :: rest =>
    let st := rest.foldl coalesceStep (([], 0), first, first)
    (add_ranges st.1.1 st.2.2 st.2.1 st.1.2, st.1.2 + 1)

/-- Modelled from the spec: `run_len` lives in the absent source file
`utils.rs`.  Per the Glossary, a run is "a maximal consecutive subsequence of
bells at the front ... that is strictly ascending or strictly descending in
value"; `ascRunLen` is the length of the maximal strictly ascending front
segment. -/
def ascRunLen : List Nat → Nat
  | [] => 0
  | [_] => 1
  | a :: b :: rest => if a < b then 1 + ascRunLen (b :: rest) else 1

/-- Modelled from the spec: the length of the maximal strictly descending
front segment (see `ascRunLen`). -/
def descRunLen : List Nat → Nat
  | [] => 0
  | [_] => 1
  | a :: b :: rest => if b < a then 1 + descRunLen (b :: rest) else 1

/-- Modelled from the spec: `run_len` returns the length of the front run,
which may be ascending or descending. -/
def run_len (l : List Nat) : Nat :=
  max (ascRunLen l) (descRunLen l)

/-- The slice-marking step of `ExpandedRow::calculate_music`: append `part` to
every position in `lo..hi` (`music[lo..hi].iter_mut().for_each(|m| m.push(part))`). -/
def markRange (music : List (List Nat)) (lo hi part : Nat) : List (List Nat) :=
  music.enum.map (fun q => if lo ≤ q.1 ∧ q.1 < hi then q.2 ++ [part] else q.2)

/-- One iteration of the part loop of `ExpandedRow::calculate_music`: mark
`0..run_len_f` when the front run has length at least 4, then mark
`max(stage - run_len_b, run_len_f)..stage` when the back run has length at
least 4. -/
def musicStep (stage : Stage) (music : List (List Nat)) (p : Nat × Row) :
    List (List Nat) :=
  if 4 ≤ run_len p.2.reverse then
    markRange
      (if 4 ≤ run_len p.2 then markRange music 0 (run_len p.2) p.1 else music)
      (max (stage - run_len p.2.reverse) (run_len p.2)) stage p.1
  else
    (if 4 ≤ run_len p.2 then markRange music 0 (run_len p.2) p.1 else music)

/-- `ExpandedRow::calculate_music`: start from `vec![Vec::new(); stage]` and
run the part loop over the realized rows. -/
def calculate_music (all_rows : List Row) (stage : Stage) : List (List Nat) :=
  all_rows.enum.foldl (musicStep stage) (List.replicate stage [])

/-- Spec-side helper: split a list into its maximal runs of consecutive
elements related by `R` (used to state the truth-prover and coalescer
claims). -/
def chunkBy {α : Type} (R : α → α → Bool) : List α → List (List α)
  | [] => []
  | [a] => [[a]]
  | a :: b :: rest =>
    if R a b then
      match chunkBy R (b :: rest) with
      | [] => [[a]]
      | c :: cs => (a :: c) :: cs
    else [a] :: chunkBy R (b :: rest)

/-- Spec-side helper: the locations of a run of flattened pairs, with the part
index dropped and sorted the way `gen_false_row_groups` sorts a finished
group. -/
def sortedLocsOf (c : List (RowOrigin × List Nat)) : List RowLocation :=
  sortBy locLe (c.map (fun p => RowLocation.ofOrigin p.1))

/-- Spec-side helper: the row-value equality used to delimit runs in the
sorted flattened sequence. -/
def sameRow (a b : RowOrigin × List Nat) : Bool :=
  a.2 == b.2

example :
    gen_false_row_groups
      [(⟨0, 0, 0⟩, [0, 1]), (⟨0, 0, 1⟩, [1, 0]), (⟨0, 1, 0⟩, [0, 1])] =
    ([[⟨0, 0⟩, ⟨1, 0⟩]], 2) := by decide
example : coalesce_false_row_groups [] = ([], 1) := by decide
example :
    (coalesce_false_row_groups
      [[⟨0, 4⟩], [⟨0, 5⟩], [⟨0, 6⟩]]).2 = 1 := by decide
example :
    calculate_music [[5, 4, 7, 6, 0, 1, 2, 3]] 8 =
    [[], [], [], [], [0], [0], [0], [0]] := by decide

/-! ## Shared helper lemmas -/

/-- The `fast_hash` accumulator stays `0` forever: the source multiplies into
an accumulator initialised to `0`. -/
theorem fastHashFold_zero (n : Nat) (l : List Nat) :
    ∀ m : Nat,
      (l.foldl (fun acc b => (acc.1 * (b * acc.2), acc.2 * n)) (0, m)).1 = 0 := by
  induction l with
  | nil => intro m; rfl
  | cons b t ih =>
    intro m
    simpa only [List.foldl_cons, Nat.zero_mul] using ih (m * n)

/-- The row invariant is exactly "permutation of `0..stage`". -/
theorem valid_iff_perm (r : Row) :
    Row.valid r ↔ r.Perm (List.range r.length) := by
  constructor
  · rintro ⟨hnd, hb⟩
    have hsub : r ⊆ List.range r.length := fun x hx =>
      List.mem_range.mpr (hb x hx)
    exact (List.subperm_of_subset hnd hsub).perm_of_length_le (by simp)
  · intro hp
    refine ⟨hp.nodup_iff.mpr (List.nodup_range _), fun b hb => ?_⟩
    exact List.mem_range.mp (hp.subset hb)

/-- C1: `fast_hash` is claimed collision-free per stage within the stated
bit-width bounds; in fact the accumulator is multiplied (`accum *= ...`)
instead of added to, so every row hashes to `0`, and the two distinct valid
rows `12` and `21` of stage 2 (well within the 16-bit bound `6!`) collide.
This is a code bug: the function's own doc comment promises perfect
collision-resistance up to those stages. -/
theorem claim_C1_fast_hash_constant_zero :
    (∀ r : Row, Row.fast_hash r = 0)
    ∧ Row.valid [0, 1] ∧ Row.valid [1, 0] ∧ ([0, 1] : Row) ≠ [1, 0]
    ∧ Row.fast_hash [0, 1] = Row.fast_hash [1, 0] := by
  refine ⟨fun r => fastHashFold_zero r.length r 1, by decide, by decide,
    by decide, by decide⟩

/-- C5: checked multiplication errors exactly on mismatched stages, the error
carries both original stages, and on equal stages it returns the row whose
bell at position `i` is `r1[r2[i]]`. -/
theorem claim_C5_checked_mul (r1 r2 : Row) (h1 : Row.valid r1)
    (h2 : Row.valid r2) :
    (∀ e, Row.mul r1 r2 = .error e ↔
      Row.stage r1 ≠ Row.stage r2 ∧ e = ⟨Row.stage r1, Row.stage r2⟩)
    ∧ (Row.stage r1 = Row.stage r2 →
        Row.mul r1 r2 = .ok (Row.mul_unchecked r1 r2)
        ∧ ∀ i, i < Row.stage r1 →
            (Row.mul_unchecked r1 r2).getD i 0 = r1.getD (r2.getD i 0) 0) := by
  constructor
  · intro e
    by_cases h : Row.stage r1 = Row.stage r2
    · simp [Row.mul, IncompatibleStages.test_err, h]
    · simp only [Row.mul, IncompatibleStages.test_err, if_neg h]
      constructor
      · intro he
        cases he
        exact ⟨h, rfl⟩
      · rintro ⟨-, rfl⟩
        rfl
  · intro h
    refine ⟨by simp [Row.mul, IncompatibleStages.test_err, h], fun i hi => ?_⟩
    have hi2 : i < r2.length := by
      have h2 : r1.length = r2.length := h
      have hi3 : i < r1.length := hi
      exact h2 ▸ hi3
    rw [Row.mul_unchecked, List.getD_eq_getElem _ _ (by simpa using hi2),
      List.getElem_map, List.getD_eq_getElem _ _ hi2]

/-- Witness for C5 at `r1 = 21`, `r2 = 12` (equal stages) — the checked
product succeeds. -/
theorem claim_C5_checked_mul_witness :
    Row.mul [1, 0] [0, 1] = .ok (Row.mul_unchecked [1, 0] [0, 1]) :=
  ((claim_C5_checked_mul [1, 0] [0, 1] (by decide) (by decide)).2 rfl).1

/-- C10: a string with no recognised bell-name characters (the empty string
included) parses successfully to the zero-length row, whose stage is `0`. -/
theorem claim_C10_parse_no_bells (s : List Char)
    (h : ∀ c ∈ s, Bell.from_name c = none) :
    Row.parse s = .ok ([] : Row) ∧ Row.stage ([] : Row) = 0 := by
  have hfm : s.filterMap Bell.from_name = [] := List.filterMap_eq_nil.mpr h
  rw [Row.parse, hfm]
  exact ⟨rfl, rfl⟩

/-- Witness for C10 on the empty string and a string of unrecognised
characters. -/
theorem claim_C10_parse_no_bells_witness :
    Row.parse [] = .ok ([] : Row)
    ∧ Row.parse (' ' :: '#' :: '|' :: []) = .ok ([] : Row) :=
  ⟨(claim_C10_parse_no_bells [] (by decide)).1,
   (claim_C10_parse_no_bells (' ' :: '#' :: '|' :: []) (by decide)).1⟩

/-- `getD` after `set` on the boolean checklist. -/
theorem getD_set_bool (cl : List Bool) (b j : Nat) (v : Bool) :
    (cl.set b v).getD j false =
      if b = j ∧ b < cl.length then v else cl.getD j false := by
  rcases Decidable.em (b = j) with rfl | hne
  · by_cases hb : b < cl.length
    · simp [List.getD_eq_getElem?_getD, List.getElem?_set_self hb, hb]
    · rw [List.set_eq_of_length_le (by omega)]
      simp [hb]
  · simp [List.getD_eq_getElem?_getD, List.getElem?_set_ne hne, hne]

/-- The checklist scan succeeds iff the remaining bells are in range, have no
duplicates among themselves, and avoid the already-marked bells
(`seen` abstracts the marked entries of the checklist). -/
theorem checkAux_none_iff (stage : Nat) :
    ∀ (rest : List Nat) (cl : List Bool) (seen : List Nat),
      cl.length = stage →
      (∀ j, cl.getD j false = true ↔ j ∈ seen) →
      (Row.checkAux stage cl rest = none ↔
        (∀ b ∈ rest, b < stage) ∧ rest.Nodup ∧ ∀ b ∈ rest, b ∉ seen) := by
  intro rest
  induction rest with
  | nil =>
    intro cl seen hlen hinv
    simp [Row.checkAux]
  | cons b t ih =>
    intro cl seen hlen hinv
    rw [Row.checkAux]
    by_cases hb : b < cl.length
    · rw [dif_pos hb]
      by_cases hmark : cl.get ⟨b, hb⟩ = true
      · rw [if_pos hmark]
        have hbseen : b ∈ seen := by
          refine (hinv b).mp ?_
          rw [List.getD_eq_getElem _ _ hb]
          exact hmark
        constructor
        · intro hc; cases hc
        · rintro ⟨-, -, hns⟩
          exact absurd hbseen (hns b (List.mem_cons_self b t))
      · rw [if_neg hmark]
        have hbnotseen : b ∉ seen := by
          intro hbs
          refine hmark ?_
          have h2 := (hinv b).mpr hbs
          rw [List.getD_eq_getElem _ _ hb] at h2
          exact h2
        rw [ih (cl.set b true) (b :: seen) (by simp [hlen]) ?hinv2]
        case hinv2 =>
          intro j
          rw [getD_set_bool]
          rcases Decidable.em (b = j) with rfl | hne
          · simp [hb]
          · simp only [hne, false_and, if_false, List.mem_cons]
            rw [hinv j]
            constructor
            · exact Or.inr
            · rintro (rfl | hj)
              · exact absurd rfl hne
              · exact hj
        constructor
        · rintro ⟨h1, h2, h3⟩
          refine ⟨?_, ?_, ?_⟩
          · intro x hx
            rcases List.mem_cons.mp hx with rfl | hx2
            · omega
            · exact h1 x hx2
          · refine List.nodup_cons.mpr ⟨fun hbt => ?_, h2⟩
            exact absurd (List.mem_cons_self b seen) (h3 b hbt)
          · intro x hx
            rcases List.mem_cons.mp hx with rfl | hx2
            · exact hbnotseen
            · exact fun hxs => h3 x hx2 (List.mem_cons.mpr (Or.inr hxs))
        · rintro ⟨h1, h2, h3⟩
          refine ⟨fun x hx => h1 x (List.mem_cons.mpr (Or.inr hx)),
            (List.nodup_cons.mp h2).2, ?_⟩
          intro x hx hmem
          rcases List.mem_cons.mp hmem with rfl | hxs
          · exact (List.nodup_cons.mp h2).1 hx
          · exact h3 x (List.mem_cons.mpr (Or.inr hx)) hxs
    · rw [dif_neg hb]
      constructor
      · intro hc; cases hc
      · rintro ⟨h1, -, -⟩
        exact absurd (h1 b (List.mem_cons_self b t)) (by omega)

/-- The checklist scan reports the first offending bell: `BellOutOfStage` if
that bell's index is at least the stage, `DuplicateBell` if it was already
seen (earlier in the scan or in the abstracted marked set `seen`). -/
theorem checkAux_first_err (stage : Nat) :
    ∀ (i : Nat) (rest : List Nat) (cl : List Bool) (seen : List Nat),
      cl.length = stage →
      (∀ j, cl.getD j false = true ↔ j ∈ seen) →
      ∀ (hi : i < rest.length),
      (∀ (j : Nat) (hj : j < i), rest.get ⟨j, hj.trans hi⟩ < stage ∧
          rest.get ⟨j, hj.trans hi⟩ ∉ seen ++ rest.take j) →
      ((stage ≤ rest.get ⟨i, hi⟩ →
          Row.checkAux stage cl rest =
            some (.BellOutOfStage (rest.get ⟨i, hi⟩) stage))
       ∧ (rest.get ⟨i, hi⟩ ∈ seen ++ rest.take i →
          Row.checkAux stage cl rest =
            some (.DuplicateBell (rest.get ⟨i, hi⟩)))) := by
  intro i
  induction i with
  | zero =>
    rintro (_ | ⟨b, t⟩) cl seen hlen hinv hi hprev
    · cases hi
    · constructor
      · intro hoos
        rw [Row.checkAux, dif_neg (by simp at hoos ⊢; omega)]
        rfl
      · intro hdup
        simp only [List.get, List.take_zero, List.append_nil] at hdup ⊢
        have hmarked : cl.getD b false = true := (hinv b).mpr hdup
        have hblt : b < cl.length := by
          by_contra hnb
          rw [List.getD_eq_default _ _ (by omega)] at hmarked
          cases hmarked
        rw [Row.checkAux, dif_pos hblt]
        have : cl.get ⟨b, hblt⟩ = true := by
          rw [List.getD_eq_getElem _ _ hblt] at hmarked
          exact hmarked
        rw [if_pos this]
  | succ i ih =>
    rintro (_ | ⟨b, t⟩) cl seen hlen hinv hi hprev
    · cases hi
    · have hb0 := hprev 0 (Nat.succ_pos i)
      simp only [List.get, List.take_zero, List.append_nil] at hb0
      have hblt : b < cl.length := by omega
      have hbnotseen : b ∉ seen := hb0.2
      have hbfalse : ¬ cl.get ⟨b, hblt⟩ = true := by
        intro hmark
        refine hbnotseen ((hinv b).mp ?_)
        rw [List.getD_eq_getElem _ _ hblt]
        exact hmark
      rw [Row.checkAux, dif_pos hblt, if_neg hbfalse]
      have hi2 : i < t.length := by simpa using hi
      have hmain := ih t (cl.set b true) (b :: seen) (by simp [hlen]) ?hinv2
        hi2 ?hprev2
      case hinv2 =>
        intro j
        rw [getD_set_bool]
        rcases Decidable.em (b = j) with rfl | hne
        · simp [hblt]
        · simp only [hne, false_and, if_false, List.mem_cons]
          rw [hinv j]
          constructor
          · exact Or.inr
          · rintro (rfl | hj)
            · exact absurd rfl hne
            · exact hj
      case hprev2 =>
        intro j hj
        have hp := hprev (j + 1) (by omega)
        simp only [List.get_cons_succ, List.take_succ_cons] at hp
        refine ⟨hp.1, fun hmem => hp.2 ?_⟩
        simp only [List.mem_append, List.mem_cons] at hmem ⊢
        tauto
      simp only [List.get_cons_succ, List.take_succ_cons]
      refine ⟨fun hoos => ?_, fun hdup => ?_⟩
      · exact hmain.1 hoos
      · refine hmain.2 ?_
        simp only [List.mem_append, List.mem_cons] at hdup ⊢
        tauto

/-- `check_validity` is the checklist scan run from an all-false checklist of
length `stage`. -/
theorem check_validity_eq (bells : List Nat) :
    Row.check_validity bells =
      match Row.checkAux bells.length
          (List.replicate bells.length false) bells with
      | some e => .error e
      | none => .ok bells := rfl

/-- C6: the validity scan succeeds exactly on permutations of `0..stage`;
otherwise it fails at the first offending bell, with `BellOutOfStage` for an
index at least the stage and `DuplicateBell` for a repeat of an earlier bell;
no error other than these two is ever produced; and the two documented parse
examples behave as stated (`"112345"` duplicates bell 1, which has index 0,
and `"12745"` has bell 7, index 6, outside stage 5). -/
theorem claim_C6_check_validity (bells : List Nat) :
    (Row.check_validity bells = .ok bells ↔
      bells.Perm (List.range bells.length))
    ∧ (∀ (i : Nat) (hi : i < bells.length),
        (∀ (j : Nat) (hj : j < i), bells.get ⟨j, hj.trans hi⟩ < bells.length ∧
            bells.get ⟨j, hj.trans hi⟩ ∉ bells.take j) →
        (bells.length ≤ bells.get ⟨i, hi⟩ →
            Row.check_validity bells =
              .error (.BellOutOfStage (bells.get ⟨i, hi⟩) (Row.stage bells)))
        ∧ (bells.get ⟨i, hi⟩ ∈ bells.take i →
            Row.check_validity bells =
              .error (.DuplicateBell (bells.get ⟨i, hi⟩))))
    ∧ (∀ e, Row.check_validity bells = .error e →
        (∃ b, e = .DuplicateBell b) ∨ ∃ b s, e = .BellOutOfStage b s)
    ∧ Row.parse ('1' :: '1' :: '2' :: '3' :: '4' :: '5' :: []) =
        .error (.DuplicateBell 0)
    ∧ Row.parse ('1' :: '2' :: '7' :: '4' :: '5' :: []) =
        .error (.BellOutOfStage 6 5) := by
  have hinv0 : ∀ j : Nat,
      (List.replicate bells.length false).getD j false = true ↔
        j ∈ ([] : List Nat) := by
    intro j
    simp [List.getD_eq_getElem?_getD, List.getElem?_replicate]
    split <;> rfl
  refine ⟨?_, ?_, ?_, rfl, rfl⟩
  · have hmain := checkAux_none_iff bells.length bells
      (List.replicate bells.length false) [] (by simp) hinv0
    rw [check_validity_eq]
    cases hca : Row.checkAux bells.length
        (List.replicate bells.length false) bells with
    | some e =>
      simp only
      constructor
      · intro hc; cases hc
      · intro hperm
        have hval : Row.valid bells := (valid_iff_perm bells).mpr hperm
        have hnone := hmain.mpr ⟨hval.2, hval.1, by simp⟩
        rw [hca] at hnone
        cases hnone
    | none =>
      simp only
      constructor
      · intro _
        have hv := hmain.mp hca
        exact (valid_iff_perm bells).mp ⟨hv.2.1, hv.1⟩
      · intro _
        trivial
  · intro i hi hprev
    have hmain := checkAux_first_err bells.length i bells
      (List.replicate bells.length false) [] (by simp) hinv0 hi
      (by simpa using hprev)
    constructor
    · intro hoos
      rw [check_validity_eq, hmain.1 hoos]
      rfl
    · intro hdup
      rw [check_validity_eq, hmain.2 (by simpa using hdup)]
  · intro e he
    cases e with
    | DuplicateBell b => exact Or.inl ⟨b, rfl⟩
    | BellOutOfStage b s => exact Or.inr ⟨b, s, rfl⟩

/-- Witness for C6: a valid row of stage 3, a duplicate at scan position 1,
and an out-of-stage bell at scan position 1. -/
theorem claim_C6_check_validity_witness :
    Row.check_validity [0, 2, 1] = .ok [0, 2, 1]
    ∧ Row.check_validity [0, 0, 1] = .error (.DuplicateBell 0)
    ∧ Row.check_validity [0, 5, 1] = .error (.BellOutOfStage 5 3) :=
  ⟨(claim_C6_check_validity [0, 2, 1]).1.mpr (by decide),
   ((claim_C6_check_validity [0, 0, 1]).2.1 1 (by decide)
      (by decide)).2 (by decide),
   ((claim_C6_check_validity [0, 5, 1]).2.1 1 (by decide)
      (by decide)).1 (by decide)⟩

/-! ## Inverse (`impl Not for &Row`) -/

/-- The write loop of the inverse preserves the length of the buffer. -/
theorem foldl_set_length (l : List (Nat × Nat)) :
    ∀ acc : List Nat,
      (l.foldl (fun a p => a.set p.2 p.1) acc).length = acc.length := by
  induction l with
  | nil => intro acc; rfl
  | cons p t ih =>
    intro acc
    rw [List.foldl_cons, ih, List.length_set]

/-- A buffer entry never written to keeps its original value. -/
theorem foldl_set_getD_not_mem (l : List (Nat × Nat)) :
    ∀ (acc : List Nat) (q : Nat), (∀ p ∈ l, p.2 ≠ q) →
      (l.foldl (fun a p => a.set p.2 p.1) acc).getD q 0 = acc.getD q 0 := by
  induction l with
  | nil => intro acc q _; rfl
  | cons p t ih =>
    intro acc q hq
    rw [List.foldl_cons, ih _ q (fun x hx => hq x (List.mem_cons.mpr (Or.inr hx))),
      List.getD_eq_getElem?_getD, List.getD_eq_getElem?_getD,
      List.getElem?_set_ne (hq p (List.mem_cons_self p t))]

/-- With pairwise-distinct target positions, a written buffer entry holds the
written value. -/
theorem foldl_set_getD_mem (l : List (Nat × Nat)) :
    ∀ (acc : List Nat) (v q : Nat), q < acc.length → (v, q) ∈ l →
      (l.map Prod.snd).Nodup →
      (l.foldl (fun a p => a.set p.2 p.1) acc).getD q 0 = v := by
  induction l with
  | nil =>
    intro acc v q _ hmem _
    cases hmem
  | cons p t ih =>
    intro acc v q hq hmem hnd
    rw [List.map_cons, List.nodup_cons] at hnd
    rw [List.foldl_cons]
    rcases List.mem_cons.mp hmem with heq | hmem2
    · cases heq
      have hne : ∀ x ∈ t, x.2 ≠ q := by
        intro x hx hxq
        refine hnd.1 ?_
        exact List.mem_map.mpr ⟨x, hx, hxq⟩
      rw [foldl_set_getD_not_mem t _ q hne,
        List.getD_eq_getElem?_getD, List.getElem?_set_self hq]
      rfl
    · exact ih _ v q (by rw [List.length_set]; exact hq) hmem2 hnd.2

/-- The defining property of the source's inverse loop: the entry of
`Row.inv r` at position `r[i]` is `i`. -/
theorem inv_getD (r : Row) (h : Row.valid r) (i : Nat) (hi : i < r.length) :
    (Row.inv r).getD (r.get ⟨i, hi⟩) 0 = i := by
  rw [Row.inv]
  refine foldl_set_getD_mem r.enum _ i (r.get ⟨i, hi⟩)
    (by rw [List.length_replicate]; exact h.2 _ (List.get_mem r i hi)) ?_ ?_
  · have : r.enum.get ⟨i, by simpa using hi⟩ = (i, r.get ⟨i, hi⟩) := by
      rw [List.get_eq_getElem, List.getElem_enum]
      rfl
    rw [← this]
    exact List.get_mem _ _ _
  · rw [List.enum_map_snd]
    exact h.1

/-- Length of the inverse row. -/
theorem inv_length (r : Row) : (Row.inv r).length = r.length := by
  rw [Row.inv, foldl_set_length, List.length_replicate]

/-- Every position below the stage is hit by some bell of a valid row. -/
theorem valid_surj (r : Row) (h : Row.valid r) (j : Nat) (hj : j < r.length) :
    ∃ i, ∃ hi : i < r.length, r.get ⟨i, hi⟩ = j := by
  have hp := (valid_iff_perm r).mp h
  have hmem : j ∈ r := hp.mem_iff.mpr (List.mem_range.mpr hj)
  obtain ⟨⟨i, hi⟩, hgi⟩ := List.get_of_mem hmem
  exact ⟨i, hi, hgi⟩

/-- Entry access of `mul_unchecked` below the permuting row's length. -/
theorem mul_unchecked_getD (x y : Row) (j : Nat) (hj : j < y.length) :
    (Row.mul_unchecked x y).getD j 0 = x.getD (y.getD j 0) 0 := by
  rw [Row.mul_unchecked, List.getD_eq_getElem _ _ (by simpa using hj),
    List.getElem_map, List.getD_eq_getElem _ _ hj]

/-- Length of `mul_unchecked`. -/
theorem mul_unchecked_length (x y : Row) :
    (Row.mul_unchecked x y).length = y.length := by
  rw [Row.mul_unchecked, List.length_map]

/-- Entry access of `rounds`. -/
theorem rounds_getD (n j : Nat) (hj : j < n) : (Row.rounds n).getD j 0 = j := by
  rw [Row.rounds, List.getD_eq_getElem _ _ (by simpa using hj),
    List.getElem_range]

/-- `row * inv = rounds`: the right-inverse law of the source inverse. -/
theorem mul_inv_right (r : Row) (h : Row.valid r) :
    Row.mul_unchecked r (Row.inv r) = Row.rounds r.length := by
  refine List.ext_getElem ?_ ?_
  · rw [mul_unchecked_length, inv_length, Row.rounds, List.length_range]
  · intro j h1 h2
    have hj : j < r.length := by
      rw [mul_unchecked_length, inv_length] at h1
      exact h1
    obtain ⟨i, hi, hgi⟩ := valid_surj r h j hj
    have hinvj : (Row.inv r).getD j 0 = i := by
      rw [← hgi]
      exact inv_getD r h i hi
    rw [← List.getD_eq_getElem _ 0 h1, ← List.getD_eq_getElem _ 0 h2,
      mul_unchecked_getD _ _ _ (by rw [inv_length]; exact hj),
      rounds_getD _ _ hj, hinvj, List.getD_eq_getElem r 0 hi]
    exact hgi

/-- The inverse of a valid row is valid (the source elides the check with this
very justification). -/
theorem inv_valid (r : Row) (h : Row.valid r) : Row.valid (Row.inv r) := by
  have hchar : ∀ (j : Nat) (hj : j < (Row.inv r).length),
      ∃ i, ∃ hi : i < r.length,
        (Row.inv r).get ⟨j, hj⟩ = i ∧ r.get ⟨i, hi⟩ = j := by
    intro j hj
    have hj2 : j < r.length := by rw [inv_length] at hj; exact hj
    obtain ⟨i, hi, hgi⟩ := valid_surj r h j hj2
    refine ⟨i, hi, ?_, hgi⟩
    have hD := inv_getD r h i hi
    rw [hgi] at hD
    rw [List.get_eq_getElem, ← List.getD_eq_getElem _ 0 hj]
    exact hD
  constructor
  · rw [List.nodup_iff_injective_get]
    rintro ⟨j1, hj1⟩ ⟨j2, hj2⟩ hget
    obtain ⟨i1, hi1, hg1, hr1⟩ := hchar j1 hj1
    obtain ⟨i2, hi2, hg2, hr2⟩ := hchar j2 hj2
    rw [hg1, hg2] at hget
    subst hget
    refine Fin.ext ?_
    show j1 = j2
    rw [← hr1, ← hr2]
  · intro b hb
    obtain ⟨⟨j, hj⟩, hgb⟩ := List.get_of_mem hb
    obtain ⟨i, hi, hg, _⟩ := hchar j hj
    rw [inv_length, ← hgb, hg]
    exact hi

/-- `inv * row = rounds`: the left-inverse law of the source inverse. -/
theorem mul_inv_left (r : Row) (h : Row.valid r) :
    Row.mul_unchecked (Row.inv r) r = Row.rounds r.length := by
  refine List.ext_getElem ?_ ?_
  · rw [mul_unchecked_length, Row.rounds, List.length_range]
  · intro i h1 h2
    have hi : i < r.length := by rw [mul_unchecked_length] at h1; exact h1
    rw [← List.getD_eq_getElem _ 0 h1, ← List.getD_eq_getElem _ 0 h2,
      mul_unchecked_getD _ _ _ hi, rounds_getD _ _ hi,
      List.getD_eq_getElem r 0 hi]
    exact inv_getD r h i hi

/-- The source inverse is the unique valid same-stage right-inverse. -/
theorem row_inv_unique (r inv2 : Row) (h : Row.valid r) (h2 : Row.valid inv2)
    (hlen : inv2.length = r.length)
    (hmul : Row.mul_unchecked r inv2 = Row.rounds r.length) :
    inv2 = Row.inv r := by
  have hlen2 : (Row.inv r).length = r.length := inv_length r
  refine List.ext_getElem (by rw [hlen, hlen2]) ?_
  intro j hj1 hj2
  have hjr : j < r.length := by rw [hlen] at hj1; exact hj1
  have ha : inv2.getD j 0 < r.length := by
    rw [← hlen]
    refine h2.2 _ ?_
    rw [List.getD_eq_getElem _ _ hj1]
    exact List.getElem_mem hj1
  have hb : (Row.inv r).getD j 0 < r.length := by
    rw [← hlen2]
    refine (inv_valid r h).2 _ ?_
    rw [List.getD_eq_getElem _ _ hj2]
    exact List.getElem_mem hj2
  have key : ∀ z : Row, z.length = r.length →
      Row.mul_unchecked r z = Row.rounds r.length →
      ∀ hz : z.getD j 0 < r.length, r.get ⟨z.getD j 0, hz⟩ = j := by
    intro z hzlen hzmul hz
    have hcongr := congrArg (fun l => l.getD j 0) hzmul
    simp only at hcongr
    rw [mul_unchecked_getD r z j (by rw [hzlen]; exact hjr),
      rounds_getD _ _ hjr] at hcongr
    rw [List.get_eq_getElem, ← List.getD_eq_getElem r 0 hz]
    exact hcongr
  have hab : r.get ⟨inv2.getD j 0, ha⟩ = r.get ⟨(Row.inv r).getD j 0, hb⟩ := by
    rw [key inv2 hlen hmul ha, key (Row.inv r) hlen2 (mul_inv_right r h) hb]
  have hfin := List.nodup_iff_injective_get.mp h.1 hab
  have hval : inv2.getD j 0 = (Row.inv r).getD j 0 := congrArg Fin.val hfin
  rw [← List.getD_eq_getElem inv2 0 hj1, ← List.getD_eq_getElem (Row.inv r) 0 hj2]
  exact hval

/-- C7: for a valid row, the source inverse is a valid row of the same stage,
it is built by placing the bell of index `i` at position `row[i]`, it is a
two-sided inverse (`row * inv = inv * row = rounds`), and it is the unique
valid same-stage row with that property. -/
theorem claim_C7_inverse (r : Row) (h : Row.valid r) :
    Row.valid (Row.inv r)
    ∧ (Row.inv r).length = r.length
    ∧ (∀ (i : Nat) (hi : i < r.length),
        (Row.inv r).getD (r.get ⟨i, hi⟩) 0 = i)
    ∧ Row.mul_unchecked r (Row.inv r) = Row.rounds r.length
    ∧ Row.mul_unchecked (Row.inv r) r = Row.rounds r.length
    ∧ ∀ inv2 : Row, Row.valid inv2 → inv2.length = r.length →
        Row.mul_unchecked r inv2 = Row.rounds r.length → inv2 = Row.inv r :=
  ⟨inv_valid r h, inv_length r, inv_getD r h, mul_inv_right r h,
    mul_inv_left r h, fun inv2 h2 hlen hmul => row_inv_unique r inv2 h h2 hlen hmul⟩

/-- Witness for C7 at the 3-cycle `231`: both inverse laws hold concretely. -/
theorem claim_C7_inverse_witness :
    Row.mul_unchecked [1, 2, 0] (Row.inv [1, 2, 0]) = Row.rounds 3
    ∧ Row.mul_unchecked (Row.inv [1, 2, 0]) [1, 2, 0] = Row.rounds 3 :=
  ⟨(claim_C7_inverse [1, 2, 0] (by decide)).2.2.2.1,
   (claim_C7_inverse [1, 2, 0] (by decide)).2.2.2.2.1⟩

/-! ## Validity of the generator rows and of unchecked multiplication -/

/-- Rounds is valid on every stage. -/
theorem rounds_valid (n : Nat) : Row.valid (Row.rounds n) := by
  refine ⟨?_, ?_⟩
  · rw [Row.rounds]
    exact List.nodup_range n
  · intro b hb
    rw [Row.rounds, List.length_range]
    rw [Row.rounds] at hb
    exact List.mem_range.mp hb

/-- Backrounds is valid on every stage. -/
theorem backrounds_valid (n : Nat) : Row.valid (Row.backrounds n) := by
  refine ⟨?_, ?_⟩
  · rw [Row.backrounds]
    exact List.nodup_reverse.mpr (List.nodup_range n)
  · intro b hb
    rw [Row.backrounds, List.length_reverse, List.length_range]
    rw [Row.backrounds, List.mem_reverse] at hb
    exact List.mem_range.mp hb

/-- Queens has the full stage length. -/
theorem queens_length (n : Nat) : (Row.queens n).length = n := by
  rw [Row.queens, List.length_append, List.length_map, List.length_map,
    List.length_range, List.length_range]
  omega

/-- Queens is valid on every stage. -/
theorem queens_valid (n : Nat) : Row.valid (Row.queens n) := by
  refine ⟨?_, ?_⟩
  · rw [Row.queens]
    refine List.Nodup.append ?_ ?_ ?_
    · exact List.Nodup.map (fun a b hab => by omega) (List.nodup_range _)
    · exact List.Nodup.map (fun a b hab => by omega) (List.nodup_range _)
    · intro x hx1 hx2
      obtain ⟨a, -, rfl⟩ := List.mem_map.mp hx1
      obtain ⟨b, -, hb⟩ := List.mem_map.mp hx2
      omega
  · intro b hb
    rw [queens_length]
    rw [Row.queens, List.mem_append] at hb
    rcases hb with hb | hb
    · obtain ⟨a, ha, rfl⟩ := List.mem_map.mp hb
      have := List.mem_range.mp ha
      omega
    · obtain ⟨a, ha, rfl⟩ := List.mem_map.mp hb
      have := List.mem_range.mp ha
      omega

/-- The product of two valid rows of one stage is valid (the source elides
the check with this very justification). -/
theorem mul_unchecked_valid (x y : Row) (hx : Row.valid x) (hy : Row.valid y)
    (hlen : x.length = y.length) : Row.valid (Row.mul_unchecked x y) := by
  refine ⟨?_, ?_⟩
  · rw [Row.mul_unchecked]
    refine List.Nodup.map_on ?_ hy.1
    intro a ha b hb hab
    have ha2 : a < x.length := by rw [hlen]; exact hy.2 a ha
    have hb2 : b < x.length := by rw [hlen]; exact hy.2 b hb
    rw [List.getD_eq_getElem _ _ ha2, List.getD_eq_getElem _ _ hb2] at hab
    have hfin := List.nodup_iff_injective_get.mp hx.1
      (show x.get ⟨a, ha2⟩ = x.get ⟨b, hb2⟩ from hab)
    exact congrArg Fin.val hfin
  · intro b hb
    rw [mul_unchecked_length, ← hlen]
    rw [Row.mul_unchecked] at hb
    obtain ⟨a, ha, rfl⟩ := List.mem_map.mp hb
    have ha2 : a < x.length := by rw [hlen]; exact hy.2 a ha
    rw [List.getD_eq_getElem _ _ ha2]
    exact hx.2 _ (List.getElem_mem ha2)

/-- C9: every row-producing operation preserves the bijection invariant
without re-checking it: rounds, backrounds and queens are valid on every
stage, the unchecked product of valid same-stage rows is valid, and the
inverse of a valid row is valid. -/
theorem claim_C9_validity_preserved :
    (∀ n : Stage, Row.valid (Row.rounds n) ∧ Row.valid (Row.backrounds n)
      ∧ Row.valid (Row.queens n))
    ∧ (∀ x y : Row, Row.valid x → Row.valid y → x.length = y.length →
        Row.valid (Row.mul_unchecked x y))
    ∧ (∀ r : Row, Row.valid r → Row.valid (Row.inv r)) :=
  ⟨fun n => ⟨rounds_valid n, backrounds_valid n, queens_valid n⟩,
   mul_unchecked_valid, inv_valid⟩

/-- Witness for C9: the unchecked product of two concrete valid stage-3 rows
is valid. -/
theorem claim_C9_validity_preserved_witness :
    Row.valid (Row.mul_unchecked [1, 2, 0] [2, 1, 0]) :=
  claim_C9_validity_preserved.2.1 [1, 2, 0] [2, 1, 0]
    (by decide) (by decide) rfl

/-! ## Closure (`Row::closure`) -/

/-- The successive values of the loop variable `row` in `Row::closure`:
`row_0` is the starting row and each step multiplies by `orig` on the right. -/
def rowPowFrom (orig row : Row) : Nat → Row
  | 0 => row
  | k + 1 => Row.mul_unchecked (rowPowFrom orig row k) orig

/-- Proof-side view of a row as the value table of a permutation of `Fin n`. -/
def listOfPerm {n : Nat} (σ : Equiv.Perm (Fin n)) : Row :=
  (List.finRange n).map (fun i => (σ i : Nat))

theorem length_listOfPerm {n : Nat} (σ : Equiv.Perm (Fin n)) :
    (listOfPerm σ).length = n := by
  rw [listOfPerm, List.length_map, List.length_finRange]

theorem range_getD (n i : Nat) (hi : i < n) :
    (List.range n).getD i 0 = i := by
  rw [List.getD_eq_getElem _ _ (by simpa using hi), List.getElem_range]

theorem getD_listOfPerm {n : Nat} (σ : Equiv.Perm (Fin n)) (b : Nat)
    (hb : b < n) : (listOfPerm σ).getD b 0 = (σ ⟨b, hb⟩ : Nat) := by
  have hb2 : b < (List.finRange n).length := by simpa using hb
  rw [listOfPerm, List.getD_eq_getElem _ _ (by simpa using hb),
    List.getElem_map]
  have hfr : (List.finRange n)[b] = ⟨b, hb⟩ := by
    rw [List.getElem_finRange]
    rfl
  rw [hfr]

/-- Every valid row is the value table of a permutation. -/
theorem valid_exists_perm (r : Row) (h : Row.valid r) :
    ∃ σ : Equiv.Perm (Fin r.length),
      ∀ i : Fin r.length, (σ i : Nat) = r.get i := by
  have hinj : Function.Injective (fun i : Fin r.length =>
      (⟨r.get i, h.2 _ (List.get_mem r i.1 i.2)⟩ : Fin r.length)) := by
    intro a b hab
    have hg : r.get a = r.get b := congrArg Fin.val hab
    exact List.nodup_iff_injective_get.mp h.1 hg
  have hbij := Finite.injective_iff_bijective.mp hinj
  exact ⟨Equiv.ofBijective _ hbij, fun i => rfl⟩

theorem listOfPerm_self (r : Row) (h : Row.valid r)
    (σ : Equiv.Perm (Fin r.length)) (hσ : ∀ i, (σ i : Nat) = r.get i) :
    listOfPerm σ = r := by
  rw [listOfPerm]
  have hmc : (List.finRange r.length).map (fun i => (σ i : Nat)) =
      (List.finRange r.length).map r.get :=
    List.map_congr_left (fun i _ => hσ i)
  rw [hmc]
  exact List.finRange_map_get r

theorem listOfPerm_one (n : Nat) :
    listOfPerm (1 : Equiv.Perm (Fin n)) = List.range n := by
  refine List.ext_getElem (by rw [length_listOfPerm, List.length_range]) ?_
  intro i h1 h2
  have hi : i < n := by rw [length_listOfPerm] at h1; exact h1
  rw [← List.getD_eq_getElem _ 0 h1, ← List.getD_eq_getElem _ 0 h2,
    getD_listOfPerm _ _ hi, range_getD _ _ hi]
  rfl

/-- The loop values are the successive powers of the underlying
permutation. -/
theorem rowPowFrom_eq_listOfPerm (r : Row) (h : Row.valid r)
    (σ : Equiv.Perm (Fin r.length)) (hσ : ∀ i, (σ i : Nat) = r.get i) :
    ∀ k : Nat, rowPowFrom r r k = listOfPerm (σ ^ (k + 1)) := by
  intro k
  induction k with
  | zero =>
    rw [pow_one, listOfPerm_self r h σ hσ]
    rfl
  | succ k ih =>
    have hstep : rowPowFrom r r (k + 1) =
        Row.mul_unchecked (rowPowFrom r r k) r := rfl
    rw [hstep]
    refine List.ext_getElem ?_ ?_
    · rw [mul_unchecked_length, length_listOfPerm]
    · intro i h1 h2
      have hi : i < r.length := by rw [mul_unchecked_length] at h1; exact h1
      rw [← List.getD_eq_getElem _ 0 h1, ← List.getD_eq_getElem _ 0 h2,
        mul_unchecked_getD _ _ _ hi, ih]
      have hri : r.getD i 0 < r.length := by
        rw [List.getD_eq_getElem _ _ hi]
        exact h.2 _ (List.getElem_mem hi)
      rw [getD_listOfPerm _ _ hri, getD_listOfPerm _ _ hi]
      have hfin : (⟨r.getD i 0, hri⟩ : Fin r.length) = σ ⟨i, hi⟩ := by
        refine Fin.ext ?_
        show r.getD i 0 = (σ ⟨i, hi⟩ : Nat)
        rw [hσ ⟨i, hi⟩, List.getD_eq_getElem _ _ hi]
        rfl
      rw [hfin]
      conv_rhs => rw [pow_succ, Equiv.Perm.mul_apply]

/-- `is_rounds` recognises exactly the identity table. -/
theorem is_rounds_iff (row : Row) :
    Row.is_rounds row = true ↔ row = List.range row.length := by
  rw [Row.is_rounds, List.all_eq_true]
  constructor
  · intro hall
    refine List.ext_getElem (by rw [List.length_range]) ?_
    intro i h1 h2
    have hien : i < row.enum.length := by simpa using h1
    have hmem : (i, row[i]) ∈ row.enum := by
      have he : row.enum[i] = (i, row[i]) := List.getElem_enum row i hien
      rw [← he]
      exact List.getElem_mem hien
    have hbeq := hall _ hmem
    simp only [beq_iff_eq] at hbeq
    rw [List.getElem_range]
    exact hbeq
  · intro heq p hp
    obtain ⟨⟨i, hi⟩, hgp⟩ := List.get_of_mem hp
    have hi2 : i < row.length := by simpa using hi
    have hp2 : p = (i, row[i]) := by
      rw [← hgp, List.get_eq_getElem, List.getElem_enum]
    have hcongr := congrArg (fun l => l.getD i 0) heq
    simp only at hcongr
    rw [List.getD_eq_getElem _ _ hi2, range_getD _ _ hi2] at hcongr
    rw [hp2]
    simp only [beq_iff_eq]
    exact hcongr

theorem is_rounds_listOfPerm {n : Nat} (σ : Equiv.Perm (Fin n)) :
    Row.is_rounds (listOfPerm σ) = true ↔ σ = 1 := by
  rw [is_rounds_iff, length_listOfPerm]
  constructor
  · intro heq
    refine Equiv.ext ?_
    intro i
    have hcongr := congrArg (fun l => l.getD i.1 0) heq
    simp only at hcongr
    rw [getD_listOfPerm σ _ i.2, range_getD _ _ i.2] at hcongr
    refine Fin.ext ?_
    rw [Equiv.Perm.one_apply]
    exact hcongr
  · intro h1
    rw [h1, listOfPerm_one]

/-- Starting the loop one step later shifts the power index by one. -/
theorem rowPowFrom_shift (orig row : Row) :
    ∀ k : Nat, rowPowFrom orig (Row.mul_unchecked row orig) k =
      rowPowFrom orig row (k + 1) := by
  intro k
  induction k with
  | zero => rfl
  | succ k ih =>
    show Row.mul_unchecked (rowPowFrom orig (Row.mul_unchecked row orig) k) orig
      = Row.mul_unchecked (rowPowFrom orig row (k + 1)) orig
    rw [ih]

/-- If rounds is first reached after `m` steps, then with more than `m` fuel
the source loop returns exactly the first `m + 1` loop values. -/
theorem closureFuel_eq (orig : Row) :
    ∀ (m f : Nat) (row : Row), m < f →
      Row.is_rounds (rowPowFrom orig row m) = true →
      (∀ j, j < m → Row.is_rounds (rowPowFrom orig row j) = false) →
      Row.closureFuel orig f row =
        (List.range (m + 1)).map (rowPowFrom orig row) := by
  intro m
  induction m with
  | zero =>
    intro f row hf hr _
    obtain ⟨f2, rfl⟩ : ∃ f2, f = f2 + 1 := ⟨f - 1, by omega⟩
    rw [Row.closureFuel]
    rw [show rowPowFrom orig row 0 = row from rfl] at hr
    rw [if_pos hr]
    rfl
  | succ m ih =>
    intro f row hf hr hmin
    obtain ⟨f2, rfl⟩ : ∃ f2, f = f2 + 1 := ⟨f - 1, by omega⟩
    rw [Row.closureFuel]
    have h0 : Row.is_rounds row = false := hmin 0 (Nat.succ_pos m)
    rw [if_neg (by simp [h0])]
    have hrec := ih f2 (Row.mul_unchecked row orig) (by omega) ?h1 ?h2
    case h1 =>
      rw [rowPowFrom_shift]
      exact hr
    case h2 =>
      intro j hj
      rw [rowPowFrom_shift]
      exact hmin (j + 1) (by omega)
    rw [hrec]
    conv_rhs => rw [List.range_succ_eq_map]
    rw [List.map_cons, List.map_map]
    congr 1
    refine List.map_congr_left ?_
    intro j _
    show rowPowFrom orig (Row.mul_unchecked row orig) j =
      rowPowFrom orig row (Nat.succ j)
    rw [rowPowFrom_shift]

/-- The closure loop of a valid row stops after exactly `d` iterations, where
`d` is the order of the row's permutation: `d` divides `Stage!`, the loop
value after `d - 1` steps is rounds, and any fuel of at least `d` returns the
first `d` loop values. -/
theorem closure_core (r : Row) (h : Row.valid r) :
    ∃ d : Nat, 1 ≤ d ∧ d ≤ Nat.factorial r.length ∧
      d ∣ Nat.factorial r.length ∧
      rowPowFrom r r (d - 1) = Row.rounds r.length ∧
      ∀ f, d ≤ f →
        Row.closureFuel r f r = (List.range d).map (rowPowFrom r r) := by
  obtain ⟨σ, hσ⟩ := valid_exists_perm r h
  have hpow := rowPowFrom_eq_listOfPerm r h σ hσ
  have hd1 : 0 < orderOf σ := orderOf_pos σ
  have hdvd : orderOf σ ∣ Nat.factorial r.length := by
    have hcard := orderOf_dvd_card (x := σ)
    rw [Fintype.card_perm, Fintype.card_fin] at hcard
    exact hcard
  have hdle : orderOf σ ≤ Nat.factorial r.length :=
    Nat.le_of_dvd (Nat.factorial_pos _) hdvd
  have hPd : Row.is_rounds (rowPowFrom r r (orderOf σ - 1)) = true := by
    rw [hpow, is_rounds_listOfPerm]
    rw [show orderOf σ - 1 + 1 = orderOf σ by omega]
    exact pow_orderOf_eq_one σ
  have hex : ∃ k, Row.is_rounds (rowPowFrom r r k) = true := ⟨_, hPd⟩
  have hm := Nat.find_spec hex
  have hmle : Nat.find hex ≤ orderOf σ - 1 := Nat.find_min' hex hPd
  have hmeq : Nat.find hex + 1 = orderOf σ := by
    have hone : σ ^ (Nat.find hex + 1) = 1 := by
      rw [hpow] at hm
      exact (is_rounds_listOfPerm _).mp hm
    have hdvd2 : orderOf σ ∣ Nat.find hex + 1 := orderOf_dvd_of_pow_eq_one hone
    have := Nat.le_of_dvd (by omega) hdvd2
    omega
  refine ⟨orderOf σ, by omega, hdle, hdvd, ?_, ?_⟩
  · rw [hpow, show orderOf σ - 1 + 1 = orderOf σ by omega,
      pow_orderOf_eq_one σ, listOfPerm_one]
    rfl
  · intro f hf
    have heq := closureFuel_eq r (Nat.find hex) f r (by omega) hm
      (fun j hj => Bool.eq_false_iff.mpr (Nat.find_min hex hj))
    rw [heq, hmeq]

/-- C4: for a valid row the closure loop terminates — `Stage!` fuel is always
enough and extra fuel changes nothing — and the resulting sequence is
non-empty, starts with the row, ends with rounds, and has length dividing
(hence at most) `Stage!`. -/
theorem claim_C4_closure (r : Row) (h : Row.valid r) :
    Row.closure r ≠ []
    ∧ (Row.closure r).head? = some r
    ∧ (Row.closure r).getLast? = some (Row.rounds r.length)
    ∧ (Row.closure r).length ∣ Nat.factorial r.length
    ∧ (Row.closure r).length ≤ Nat.factorial r.length
    ∧ ∀ f, Nat.factorial r.length ≤ f →
        Row.closureFuel r f r = Row.closure r := by
  obtain ⟨d, hd1, hdle, hdvd, hlast, hfuel⟩ := closure_core r h
  have hclos : Row.closure r = (List.range d).map (rowPowFrom r r) :=
    hfuel _ hdle
  have hlen : (Row.closure r).length = d := by
    rw [hclos, List.length_map, List.length_range]
  refine ⟨?_, ?_, ?_, ?_, ?_, ?_⟩
  · refine List.length_pos.mp ?_
    omega
  · rw [hclos, List.head?_eq_getElem?, List.getElem?_map,
      List.getElem?_range (by omega : 0 < d)]
    rfl
  · rw [hclos, List.getLast?_eq_getElem?, List.length_map, List.length_range,
      List.getElem?_map, List.getElem?_range (by omega : d - 1 < d)]
    show some (rowPowFrom r r (d - 1)) = some (Row.rounds r.length)
    rw [hlast]
  · rw [hlen]
    exact hdvd
  · rw [hlen]
    exact hdle
  · intro f hf
    rw [hclos, hfuel f (by omega)]

/-- Witness for C4 at the 3-cycle `231` (stage 3, closure length 3 divides
`3! = 6`). -/
theorem claim_C4_closure_witness :
    Row.closure [1, 2, 0] ≠ []
    ∧ (Row.closure [1, 2, 0]).head? = some [1, 2, 0]
    ∧ (Row.closure [1, 2, 0]).getLast? = some (Row.rounds 3)
    ∧ (Row.closure [1, 2, 0]).length ∣ Nat.factorial 3 :=
  ⟨(claim_C4_closure [1, 2, 0] (by decide)).1,
   (claim_C4_closure [1, 2, 0] (by decide)).2.1,
   (claim_C4_closure [1, 2, 0] (by decide)).2.2.1,
   (claim_C4_closure [1, 2, 0] (by decide)).2.2.2.1⟩

/-! ## Music highlighting (`ExpandedRow::calculate_music`) -/

/-- Spec-side helper: condition for position `i` to be marked as musical for a
realized row `r` (front run covering `i`, or back run covering `i` with the
`max` guard of the source). -/
def musicCond (stage : Stage) (r : Row) (i : Nat) : Bool :=
  (decide (4 ≤ run_len r) && decide (i < run_len r)) ||
    (decide (4 ≤ run_len r.reverse) &&
      decide (max (stage - run_len r.reverse) (run_len r) ≤ i))

theorem markRange_length (music : List (List Nat)) (lo hi part : Nat) :
    (markRange music lo hi part).length = music.length := by
  rw [markRange, List.length_map, List.enum_length]

theorem markRange_getD (music : List (List Nat)) (lo hi part i : Nat)
    (him : i < music.length) :
    (markRange music lo hi part).getD i [] =
      if lo ≤ i ∧ i < hi then music.getD i [] ++ [part]
      else music.getD i [] := by
  have hien : i < music.enum.length := by simpa using him
  rw [markRange, List.getD_eq_getElem _ _ (by simpa using him),
    List.getElem_map, List.getElem_enum, List.getD_eq_getElem _ _ him]

theorem musicStep_length (stage : Nat) (music : List (List Nat))
    (p : Nat × Row) : (musicStep stage music p).length = music.length := by
  rw [musicStep]
  by_cases hf : 4 ≤ run_len p.2 <;> by_cases hb : 4 ≤ run_len p.2.reverse <;>
    simp [hf, hb, markRange_length]

theorem count_append_singleton (l : List Nat) (x a : Nat) :
    (l ++ [x]).count a = l.count a + (if x = a then 1 else 0) := by
  rw [List.count_append, List.count_singleton]
  simp [beq_iff_eq]

/-- One part-loop iteration adds the part index at position `i` exactly when
the front- or back-run condition holds, and never twice (the `max` guard makes
the two marked ranges disjoint). -/
theorem musicStep_count (stage : Nat) (music : List (List Nat)) (p : Nat × Row)
    (part i : Nat) (hi : i < stage) (hlen : music.length = stage) :
    ((musicStep stage music p).getD i []).count part =
      (music.getD i []).count part +
      (if p.1 = part ∧ musicCond stage p.2 i = true then 1 else 0) := by
  have him : i < music.length := by omega
  have hmax : run_len p.2 ≤ max (stage - run_len p.2.reverse) (run_len p.2) :=
    le_max_right _ _
  have hcondT : ∀ hc : musicCond stage p.2 i = true,
      (if p.1 = part ∧ musicCond stage p.2 i = true then 1 else 0) =
        (if p.1 = part then 1 else 0) := by
    intro hc
    by_cases hp : p.1 = part <;> simp [hp, hc]
  have hcondF : ∀ hc : musicCond stage p.2 i = false,
      (if p.1 = part ∧ musicCond stage p.2 i = true then 1 else 0) = 0 := by
    intro hc
    simp [hc]
  rw [musicStep]
  by_cases hb : 4 ≤ run_len p.2.reverse
  · rw [if_pos hb]
    by_cases hf : 4 ≤ run_len p.2
    · rw [if_pos hf]
      rw [markRange_getD _ _ _ _ _ (by rw [markRange_length]; exact him),
        markRange_getD _ _ _ _ _ him]
      by_cases h2 : max (stage - run_len p.2.reverse) (run_len p.2) ≤ i
      · rw [if_pos ⟨h2, hi⟩, if_neg (by omega), count_append_singleton,
          hcondT (by
            rw [musicCond]
            simp only [Bool.or_eq_true, Bool.and_eq_true, decide_eq_true_eq]
            exact Or.inr ⟨hb, h2⟩)]
      · by_cases h1 : i < run_len p.2
        · rw [if_neg (by omega), if_pos ⟨Nat.zero_le i, h1⟩,
            count_append_singleton,
            hcondT (by
              rw [musicCond]
              simp only [Bool.or_eq_true, Bool.and_eq_true, decide_eq_true_eq]
              exact Or.inl ⟨hf, h1⟩)]
        · rw [if_neg (by omega), if_neg (by omega),
            hcondF (by
              rw [musicCond]
              refine Bool.eq_false_iff.mpr ?_
              intro hcx
              simp only [Bool.or_eq_true, Bool.and_eq_true, decide_eq_true_eq] at hcx
              rcases hcx with (⟨-, hlt⟩ | ⟨-, hge⟩)
              · exact h1 hlt
              · exact h2 hge)]
          omega
    · rw [if_neg hf]
      rw [markRange_getD _ _ _ _ _ him]
      by_cases h2 : max (stage - run_len p.2.reverse) (run_len p.2) ≤ i
      · rw [if_pos ⟨h2, hi⟩, count_append_singleton,
          hcondT (by
            rw [musicCond]
            simp only [Bool.or_eq_true, Bool.and_eq_true, decide_eq_true_eq]
            exact Or.inr ⟨hb, h2⟩)]
      · rw [if_neg (by omega),
          hcondF (by
            rw [musicCond]
            refine Bool.eq_false_iff.mpr ?_
            intro hcx
            simp only [Bool.or_eq_true, Bool.and_eq_true, decide_eq_true_eq] at hcx
            rcases hcx with (⟨hff, -⟩ | ⟨-, hge⟩)
            · exact hf hff
            · exact h2 hge)]
        omega
  · rw [if_neg hb]
    by_cases hf : 4 ≤ run_len p.2
    · rw [if_pos hf, markRange_getD _ _ _ _ _ him]
      by_cases h1 : i < run_len p.2
      · rw [if_pos ⟨Nat.zero_le i, h1⟩, count_append_singleton,
          hcondT (by
            rw [musicCond]
            simp only [Bool.or_eq_true, Bool.and_eq_true, decide_eq_true_eq]
            exact Or.inl ⟨hf, h1⟩)]
      · rw [if_neg (by omega),
          hcondF (by
            rw [musicCond]
            refine Bool.eq_false_iff.mpr ?_
            intro hcx
            simp only [Bool.or_eq_true, Bool.and_eq_true, decide_eq_true_eq] at hcx
            rcases hcx with (⟨-, hlt⟩ | ⟨hbb, -⟩)
            · omega
            · exact hb hbb)]
        omega
    · rw [if_neg hf,
        hcondF (by
          rw [musicCond]
          refine Bool.eq_false_iff.mpr ?_
          intro hcx
          simp only [Bool.or_eq_true, Bool.and_eq_true, decide_eq_true_eq] at hcx
          rcases hcx with (⟨hff, -⟩ | ⟨hbb, -⟩)
          · exact hf hff
          · exact hb hbb)]
      omega

/-- The part loop of `calculate_music` preserves the outer length. -/
theorem musicFold_length (stage : Nat) :
    ∀ (pairs : List (Nat × Row)) (music : List (List Nat)),
      (pairs.foldl (musicStep stage) music).length = music.length := by
  intro pairs
  induction pairs with
  | nil => intro music; rfl
  | cons p t ih =>
    intro music
    rw [List.foldl_cons, ih, musicStep_length]

/-- Running the part loop from part index `k` adds `part` at position `i`
exactly once when `part` is one of the processed indices and its row meets the
music condition. -/
theorem musicFold_count (stage part i : Nat) (hi : i < stage) :
    ∀ (rows : List Row) (k : Nat) (music : List (List Nat)),
      music.length = stage →
      (((List.enumFrom k rows).foldl (musicStep stage) music).getD i []).count
          part =
        (music.getD i []).count part +
        (if h : k ≤ part ∧ part - k < rows.length then
          (if musicCond stage (rows.get ⟨part - k, h.2⟩) i = true then 1 else 0)
         else 0) := by
  intro rows
  induction rows with
  | nil =>
    intro k music hlen
    rw [dif_neg (by simp)]
    rfl
  | cons r t ih =>
    intro k music hlen
    rw [show List.enumFrom k (r :: t) = (k, r) :: List.enumFrom (k + 1) t
        from rfl,
      List.foldl_cons,
      ih (k + 1) (musicStep stage music (k, r)) (by rw [musicStep_length, hlen]),
      musicStep_count stage music (k, r) part i hi hlen]
    rcases Nat.lt_trichotomy k part with hk | hk | hk
    · rw [if_neg (by simp; omega)]
      by_cases hin : part - (k + 1) < t.length
      · rw [dif_pos ⟨by omega, hin⟩,
          dif_pos ⟨by omega, by simp; omega⟩]
        have hidx : part - k = (part - (k + 1)) + 1 := by omega
        have hget : (r :: t).get ⟨part - k, by simp; omega⟩ =
            t.get ⟨part - (k + 1), hin⟩ := by
          have hlt : part - (k + 1) + 1 < (r :: t).length := by simp; omega
          rw [show (⟨part - k, by simp; omega⟩ : Fin (r :: t).length) =
              ⟨part - (k + 1) + 1, hlt⟩ from Fin.ext hidx]
          exact List.get_cons_succ
        rw [hget]
        omega
      · rw [dif_neg (by rintro ⟨-, hcl⟩; exact hin (by omega)),
          dif_neg (by rintro ⟨-, hcl⟩; simp at hcl; omega)]
    · subst hk
      rw [dif_neg (by omega), dif_pos ⟨le_refl k, by simp⟩]
      have hget : (r :: t).get ⟨k - k, by simp⟩ = r := by
        rw [show (⟨k - k, by simp⟩ : Fin (r :: t).length) =
            ⟨0, by simp⟩ from Fin.ext (by show k - k = 0; omega)]
        rfl
      rw [hget]
      simp
    · rw [if_neg (by rintro ⟨rfl, -⟩; omega), dif_neg (by omega),
        dif_neg (by omega)]

/-- C8: in the music table, position `i` lists part `part` exactly once when
that part's realized row has a front run of length at least 4 covering `i`, or
a back run of length at least 4 whose marked range (guarded by
`max(front_run_length, stage - back_run_length)`) covers `i` — and never
twice, so a fully sorted row is not double-counted. -/
theorem claim_C8_music (all_rows : List Row) (stage part i : Nat)
    (hi : i < stage) (hpart : part < all_rows.length) :
    (calculate_music all_rows stage).length = stage
    ∧ ((calculate_music all_rows stage).getD i []).count part =
        (if musicCond stage (all_rows.get ⟨part, hpart⟩) i = true
         then 1 else 0)
    ∧ (musicCond stage (all_rows.get ⟨part, hpart⟩) i = true ↔
        ((4 ≤ run_len (all_rows.get ⟨part, hpart⟩) ∧
            i < run_len (all_rows.get ⟨part, hpart⟩))
         ∨ (4 ≤ run_len (all_rows.get ⟨part, hpart⟩).reverse ∧
            max (stage - run_len (all_rows.get ⟨part, hpart⟩).reverse)
              (run_len (all_rows.get ⟨part, hpart⟩)) ≤ i))) := by
  refine ⟨?_, ?_, ?_⟩
  · rw [calculate_music, musicFold_length, List.length_replicate]
  · rw [calculate_music,
      show all_rows.enum = List.enumFrom 0 all_rows from rfl,
      musicFold_count stage part i hi all_rows 0 _ (by simp)]
    have hrep : ((List.replicate stage ([] : List Nat)).getD i []).count
        part = 0 := by
      rw [List.getD_eq_getElem _ _ (by simpa using hi)]
      simp [List.getElem_replicate]
    rw [hrep, dif_pos ⟨Nat.zero_le part, (by simpa using hpart)⟩]
    show 0 + (if musicCond stage (all_rows.get ⟨part, hpart⟩) i = true
        then 1 else 0) =
      (if musicCond stage (all_rows.get ⟨part, hpart⟩) i = true
        then 1 else 0)
    omega
  · rw [musicCond]
    simp only [Bool.or_eq_true, Bool.and_eq_true, decide_eq_true_eq]

/-- Witness for C8 at the row `65871234` (indices `[5,4,7,6,0,1,2,3]`) on
stage 8, part 0, position 7. -/
theorem claim_C8_music_witness :
    (calculate_music [[5, 4, 7, 6, 0, 1, 2, 3]] 8).length = 8 :=
  (claim_C8_music [[5, 4, 7, 6, 0, 1, 2, 3]] 8 0 7 (by decide) (by decide)).1

/-! ## Runs and chunking (shared by the truth prover and the coalescer) -/

/-- The first chunk of a non-empty list starts with its head. -/
theorem chunkBy_cons_head {α : Type} (R : α → α → Bool) :
    ∀ (xs : List α) (x : α),
      ∃ d ds, chunkBy R (x :: xs) = (x :: d) :: ds := by
  intro xs
  induction xs with
  | nil => intro x; exact ⟨[], [], rfl⟩
  | cons b t ih =>
    intro x
    rw [chunkBy]
    by_cases hab : R x b
    · obtain ⟨d, ds, hd⟩ := ih b
      rw [if_pos hab, hd]
      exact ⟨b :: d, ds, rfl⟩
    · rw [if_neg hab]
      exact ⟨[], chunkBy R (b :: t), rfl⟩

/-- Chunking then flattening gives back the list. -/
theorem chunkBy_flatten {α : Type} (R : α → α → Bool) :
    ∀ l : List α, (chunkBy R l).flatten = l := by
  intro l
  induction l with
  | nil => rfl
  | cons a t ih =>
    cases t with
    | nil => rfl
    | cons b t2 =>
      rw [chunkBy]
      by_cases hab : R a b
      · rw [if_pos hab]
        obtain ⟨d, ds, hd⟩ := chunkBy_cons_head R t2 b
        rw [hd]
        rw [hd] at ih
        simp only [List.flatten_cons] at ih ⊢
        rw [← ih]
        rfl
      · rw [if_neg hab, List.flatten_cons, List.singleton_append, ih]

/-- Spec-side well-formedness of a chunk decomposition for the truth prover:
each chunk is non-empty and constant in row value, and consecutive chunk
values differ (`prev` is the value just before the first chunk). -/
def ChunksOkFrom (prev : List Nat) :
    List (List (RowOrigin × List Nat)) → Prop
  | [] => True
  | c :: cs => ∃ v, v ≠ prev ∧ c ≠ [] ∧ (∀ p ∈ c, p.2 = v) ∧ ChunksOkFrom v cs

/-- `chunkBy sameRow` produces a well-formed chunk decomposition whenever the
head's row value differs from `prev`. -/
theorem chunkBy_chunksOk :
    ∀ (l : List (RowOrigin × List Nat)) (prev : List Nat),
      (∀ q, l.head? = some q → q.2 ≠ prev) →
      ChunksOkFrom prev (chunkBy sameRow l) := by
  intro l
  induction l with
  | nil =>
    intro prev _
    exact trivial
  | cons a t ih =>
    intro prev hhead
    have hne : a.2 ≠ prev := hhead a rfl
    cases t with
    | nil =>
      refine ⟨a.2, hne, by simp, ?_, trivial⟩
      intro p hp
      rcases List.mem_singleton.mp hp with rfl
      rfl
    | cons b t2 =>
      rw [chunkBy]
      by_cases hab : sameRow a b
      · have hab2 : a.2 = b.2 := by
          rw [sameRow] at hab
          exact beq_iff_eq.mp hab
        rw [if_pos hab]
        obtain ⟨d, ds, hd⟩ := chunkBy_cons_head sameRow t2 b
        rw [hd]
        have hok := ih prev (by
          intro q hq
          rw [show (b :: t2).head? = some b from rfl] at hq
          cases hq
          rw [← hab2]
          exact hne)
        rw [hd] at hok
        obtain ⟨v, hvp, -, hcv, hok2⟩ := hok
        refine ⟨v, hvp, by simp, ?_, hok2⟩
        intro p hp
        rcases List.mem_cons.mp hp with rfl | hp2
        · exact hab2.trans (hcv b (List.mem_cons_self b d))
        · exact hcv p hp2
      · rw [if_neg hab]
        refine ⟨a.2, hne, by simp, ?_, ?_⟩
        · intro p hp
          rcases List.mem_singleton.mp hp with rfl
          rfl
        · refine ih a.2 ?_
          intro q hq
          rw [show (b :: t2).head? = some b from rfl] at hq
          cases hq
          intro h2
          refine hab ?_
          rw [sameRow]
          exact beq_iff_eq.mpr h2.symm

/-- `flushGroup` always empties the current group. -/
theorem flushGroup_current (st : ProveState) : (flushGroup st).current = [] := by
  rw [flushGroup]
  split <;> rfl

/-- `flushGroup` never touches the last row. -/
theorem flushGroup_last_row (st : ProveState) :
    (flushGroup st).last_row = st.last_row := by
  rw [flushGroup]
  split <;> rfl

/-- Sweeping a block of pairs whose row value equals the last seen row only
extends the current group. -/
theorem fold_chunk_same (v : List Nat) :
    ∀ (c : List (RowOrigin × List Nat)) (st : ProveState),
      (∀ p ∈ c, p.2 = v) → st.last_row = some v →
      c.foldl proveStep st =
        ⟨st.false_rows,
          st.current ++ c.map (fun p => RowLocation.ofOrigin p.1),
          some v, st.num_false⟩ := by
  intro c
  induction c with
  | nil =>
    intro st hc hlast
    simp only [List.foldl_nil, List.map_nil, List.append_nil]
    rw [← hlast]
  | cons p t ih =>
    intro st hc hlast
    have hpv : p.2 = v := hc p (List.mem_cons_self p t)
    rw [List.foldl_cons]
    have hstep : proveStep st p =
        ⟨st.false_rows, st.current ++ [RowLocation.ofOrigin p.1],
          some p.2, st.num_false⟩ := by
      rw [proveStep, hlast]
      simp only
      rw [if_neg (fun hne => hne hpv.symm)]
    rw [hstep, ih _ (fun q hq => hc q (List.mem_cons.mpr (Or.inr hq)))
      (by rw [hpv])]
    simp [List.append_assoc]

/-- Spec-side fold over the chunk decomposition: insert each long run's sorted
locations into the set and add its length to the false-row count. -/
def specFold (acc : List (List RowLocation)) (cnt : Nat) :
    List (List (RowOrigin × List Nat)) → List (List RowLocation) × Nat
  | [] => (acc, cnt)
  | c :: cs =>
    if 1 < c.length then
      specFold (insertSet acc (sortedLocsOf c)) (cnt + c.length) cs
    else specFold acc cnt cs

/-- `flushGroup` on explicit fields. -/
theorem flushGroup_mk (fr : List (List RowLocation)) (cur : List RowLocation)
    (lr : Option (List Nat)) (nf : Nat) :
    flushGroup ⟨fr, cur, lr, nf⟩ =
      if 1 < cur.length then
        ⟨insertSet fr (sortBy locLe cur), [], lr, nf + cur.length⟩
      else ⟨fr, [], lr, nf⟩ := by
  rw [flushGroup]

/-- The sweep over a well-formed chunk decomposition computes `specFold`
(after the final flush of the pending group). -/
theorem finish_fold_chunks :
    ∀ (cs : List (List (RowOrigin × List Nat))) (prev : List Nat)
      (st : ProveState), st.last_row = some prev → ChunksOkFrom prev cs →
      ((flushGroup (cs.flatten.foldl proveStep st)).false_rows,
        (flushGroup (cs.flatten.foldl proveStep st)).num_false) =
      specFold (flushGroup st).false_rows (flushGroup st).num_false cs := by
  intro cs
  induction cs with
  | nil =>
    intro prev st _ _
    rfl
  | cons c cs2 ih =>
    intro prev st hlast hok
    obtain ⟨v, hvp, hcne, hcv, hok2⟩ := hok
    obtain ⟨q, c2, rfl⟩ : ∃ q c2, c = q :: c2 := by
      cases c with
      | nil => exact absurd rfl hcne
      | cons q c2 => exact ⟨q, c2, rfl⟩
    rw [List.flatten_cons, List.foldl_append, List.foldl_cons]
    have hqv : q.2 = v := hcv q (List.mem_cons_self q c2)
    have hstep : proveStep st q =
        ⟨(flushGroup st).false_rows, [RowLocation.ofOrigin q.1],
          some q.2, (flushGroup st).num_false⟩ := by
      rw [proveStep, hlast]
      simp only
      rw [if_pos (by rw [hqv]; exact fun h => hvp h.symm)]
      rw [flushGroup_current]
      rfl
    rw [hstep,
      fold_chunk_same v c2 _ (fun p hp => hcv p (List.mem_cons.mpr (Or.inr hp)))
        (by rw [hqv])]
    have hcur : ([RowLocation.ofOrigin q.1] ++
        c2.map (fun p => RowLocation.ofOrigin p.1)) =
        (q :: c2).map (fun p => RowLocation.ofOrigin p.1) := by
      rw [List.map_cons, List.singleton_append]
    rw [ih v _ rfl hok2, specFold, flushGroup_mk, hcur]
    have hlen_eq : ((q :: c2).map (fun p => RowLocation.ofOrigin p.1)).length =
        (q :: c2).length := by simp
    by_cases hlen : 1 < (q :: c2).length
    · rw [if_pos (show 1 < ((q :: c2).map
          (fun p => RowLocation.ofOrigin p.1)).length by
            rw [hlen_eq]; exact hlen), if_pos hlen]
      simp only
      rw [hlen_eq]
      rfl
    · rw [if_neg (show ¬ 1 < ((q :: c2).map
          (fun p => RowLocation.ofOrigin p.1)).length by
            rw [hlen_eq]; exact hlen), if_neg hlen]

/-- Membership in the insertion-ordered set model. -/
theorem insertSet_mem (s : List (List RowLocation)) (g x : List RowLocation) :
    x ∈ insertSet s g ↔ x ∈ s ∨ x = g := by
  rw [insertSet]
  by_cases hg : g ∈ s
  · rw [if_pos hg]
    constructor
    · exact Or.inl
    · rintro (hx | rfl)
      · exact hx
      · exact hg
  · rw [if_neg hg, List.mem_append, List.mem_singleton]

/-- Inserting into a duplicate-free set model keeps it duplicate-free. -/
theorem insertSet_nodup (s : List (List RowLocation)) (g : List RowLocation)
    (h : s.Nodup) : (insertSet s g).Nodup := by
  rw [insertSet]
  by_cases hg : g ∈ s
  · rw [if_pos hg]
    exact h
  · rw [if_neg hg]
    refine List.Nodup.append h (List.nodup_singleton g) ?_
    intro x hx hx2
    rcases List.mem_singleton.mp hx2 with rfl
    exact hg hx

/-- The false-row count computed by `specFold`: the sum of the lengths of the
chunks with at least two members. -/
theorem specFold_snd :
    ∀ (cs : List (List (RowOrigin × List Nat)))
      (acc : List (List RowLocation)) (cnt : Nat),
      (specFold acc cnt cs).2 =
        cnt + (((cs.filter (fun c => decide (1 < c.length))).map
          List.length).sum) := by
  intro cs
  induction cs with
  | nil =>
    intro acc cnt
    simp [specFold]
  | cons c cs2 ih =>
    intro acc cnt
    rw [specFold, List.filter_cons]
    by_cases hc : 1 < c.length
    · rw [if_pos hc, if_pos (by simpa using hc), ih, List.map_cons,
        List.sum_cons]
      omega
    · rw [if_neg hc, if_neg (by simpa using hc), ih]

/-- The groups accumulated by `specFold`: the initial set plus one sorted
location list per chunk with at least two members. -/
theorem specFold_mem :
    ∀ (cs : List (List (RowOrigin × List Nat)))
      (acc : List (List RowLocation)) (cnt : Nat) (G : List RowLocation),
      G ∈ (specFold acc cnt cs).1 ↔
        G ∈ acc ∨ ∃ c ∈ cs, 1 < c.length ∧ G = sortedLocsOf c := by
  intro cs
  induction cs with
  | nil =>
    intro acc cnt G
    simp [specFold]
  | cons c cs2 ih =>
    intro acc cnt G
    rw [specFold]
    by_cases hc : 1 < c.length
    · rw [if_pos hc, ih, insertSet_mem]
      constructor
      · rintro ((hG | rfl) | ⟨c2, hc2, hlen2, rfl⟩)
        · exact Or.inl hG
        · exact Or.inr ⟨c, List.mem_cons_self c cs2, hc, rfl⟩
        · exact Or.inr ⟨c2, List.mem_cons.mpr (Or.inr hc2), hlen2, rfl⟩
      · rintro (hG | ⟨c2, hc2, hlen2, rfl⟩)
        · exact Or.inl (Or.inl hG)
        · rcases List.mem_cons.mp hc2 with rfl | hc3
          · exact Or.inl (Or.inr rfl)
          · exact Or.inr ⟨c2, hc3, hlen2, rfl⟩
    · rw [if_neg hc, ih]
      constructor
      · rintro (hG | ⟨c2, hc2, hlen2, rfl⟩)
        · exact Or.inl hG
        · exact Or.inr ⟨c2, List.mem_cons.mpr (Or.inr hc2), hlen2, rfl⟩
      · rintro (hG | ⟨c2, hc2, hlen2, rfl⟩)
        · exact Or.inl hG
        · rcases List.mem_cons.mp hc2 with rfl | hc3
          · exact absurd hlen2 hc
          · exact Or.inr ⟨c2, hc3, hlen2, rfl⟩

/-- `specFold` preserves freedom from duplicates. -/
theorem specFold_nodup :
    ∀ (cs : List (List (RowOrigin × List Nat)))
      (acc : List (List RowLocation)) (cnt : Nat),
      acc.Nodup → (specFold acc cnt cs).1.Nodup := by
  intro cs
  induction cs with
  | nil =>
    intro acc cnt h
    exact h
  | cons c cs2 ih =>
    intro acc cnt h
    rw [specFold]
    by_cases hc : 1 < c.length
    · rw [if_pos hc]
      exact ih _ _ (insertSet_nodup _ _ h)
    · rw [if_neg hc]
      exact ih _ _ h

/-- The truth prover equals the chunk-level specification: sort, split into
maximal runs of equal row value, keep the sorted locations of each run of
length at least two (deduplicated), count all their rows. -/
theorem gen_false_row_groups_eq_specFold
    (flattened_rows : List (RowOrigin × List Nat)) :
    gen_false_row_groups flattened_rows =
      specFold [] 0 (chunkBy sameRow
        (sortBy (fun a b => rowLeB a.2 b.2) flattened_rows)) := by
  rw [gen_false_row_groups]
  cases hs : sortBy (fun a b => rowLeB a.2 b.2) flattened_rows with
  | nil => rfl
  | cons q rest =>
    obtain ⟨d, ds, hd⟩ := chunkBy_cons_head sameRow rest q
    have hneq : q.2 ≠ 0 :: q.2 := by
      intro h
      have hcl := congrArg List.length h
      simp at hcl
    have hok := chunkBy_chunksOk (q :: rest) (0 :: q.2)
      (by
        intro x hx
        rw [show (q :: rest).head? = some q from rfl] at hx
        cases hx
        exact hneq)
    rw [hd] at hok
    obtain ⟨v, hvp, -, hcv, hok2⟩ := hok
    have hqv : q.2 = v := hcv q (List.mem_cons_self q d)
    have hflat : ((q :: d) :: ds).flatten = q :: rest := by
      rw [← hd]
      exact chunkBy_flatten sameRow (q :: rest)
    rw [hd]
    have hsplit : q :: rest = (q :: d) ++ ds.flatten := by
      rw [← List.flatten_cons, hflat]
    rw [hsplit, List.foldl_append, List.foldl_cons]
    have hstep : proveStep ⟨[], [], none, 0⟩ q =
        ⟨[], [RowLocation.ofOrigin q.1], some q.2, 0⟩ := rfl
    rw [hstep,
      fold_chunk_same v d _ (fun p hp => hcv p (List.mem_cons.mpr (Or.inr hp)))
        (by rw [hqv]),
      finish_fold_chunks ds v _ rfl hok2]
    have hcur : ([RowLocation.ofOrigin q.1] ++
        d.map (fun p => RowLocation.ofOrigin p.1)) =
        (q :: d).map (fun p => RowLocation.ofOrigin p.1) := by
      rw [List.map_cons, List.singleton_append]
    rw [specFold, flushGroup_mk, hcur]
    have hlen_eq : ((q :: d).map (fun p => RowLocation.ofOrigin p.1)).length =
        (q :: d).length := by simp
    by_cases hlen : 1 < (q :: d).length
    · rw [if_pos (show 1 < ((q :: d).map
          (fun p => RowLocation.ofOrigin p.1)).length by
            rw [hlen_eq]; exact hlen), if_pos hlen]
      simp only
      rw [hlen_eq]
      rfl
    · rw [if_neg (show ¬ 1 < ((q :: d).map
          (fun p => RowLocation.ofOrigin p.1)).length by
            rw [hlen_eq]; exact hlen), if_neg hlen]

/-- C2: after sorting the flattened (origin, row) pairs by row value, each
maximal run of equal row value with at least two members contributes exactly
one falseness group — the sorted list of its locations with the part index
dropped — runs with equal location sets are deduplicated (the output is
duplicate-free and membership matches the runs exactly), and the reported
false-row count is the sum of the lengths of all such runs. -/
theorem claim_C2_false_row_groups (flattened_rows : List (RowOrigin × List Nat)) :
    (gen_false_row_groups flattened_rows).1.Nodup
    ∧ (∀ G : List RowLocation,
        G ∈ (gen_false_row_groups flattened_rows).1 ↔
          ∃ c ∈ chunkBy sameRow
              (sortBy (fun a b => rowLeB a.2 b.2) flattened_rows),
            1 < c.length ∧ G = sortedLocsOf c)
    ∧ (gen_false_row_groups flattened_rows).2 =
        (((chunkBy sameRow
            (sortBy (fun a b => rowLeB a.2 b.2) flattened_rows)).filter
          (fun c => decide (1 < c.length))).map List.length).sum := by
  rw [gen_false_row_groups_eq_specFold]
  refine ⟨specFold_nodup _ _ _ (List.nodup_nil), ?_, ?_⟩
  · intro G
    rw [specFold_mem]
    simp only [List.not_mem_nil, false_or]
  · rw [specFold_snd]
    omega

/-- The boundary counter of the coalescer walk: after the walk, `group_id + 1`
equals the number of maximal chains of pairwise-adjacent consecutive groups
(one chain per meta-group). -/
theorem coalesce_count :
    ∀ (rest : List (List RowLocation)) (first : List RowLocation)
      (ranges : List (Nat × FalseRowRange)) (gid : Nat)
      (fm : List RowLocation),
      (rest.foldl coalesceStep ((ranges, gid), first, fm)).1.2 + 1 =
        gid + (chunkBy (fun a b => isAdjacent b a) (first :: rest)).length := by
  intro rest
  induction rest with
  | nil =>
    intro first ranges gid fm
    rfl
  | cons g rest2 ih =>
    intro first ranges gid fm
    rw [List.foldl_cons, coalesceStep]
    obtain ⟨d, ds, hd⟩ :=
      chunkBy_cons_head (fun a b => isAdjacent b a) rest2 g
    by_cases hadj : isAdjacent g first
    · rw [if_pos (show isAdjacent g (((ranges, gid), first, fm)).2.1
        from hadj)]
      rw [ih g ranges gid fm]
      have hck : chunkBy (fun a b => isAdjacent b a) (first :: g :: rest2) =
          (first :: g :: d) :: ds := by
        rw [chunkBy, if_pos hadj, hd]
      rw [hck, hd]
      simp [List.length_cons]
    · rw [if_neg (show ¬ isAdjacent g (((ranges, gid), first, fm)).2.1
        from hadj)]
      rw [ih g (add_ranges ranges fm first gid) (gid + 1) g]
      have hck : chunkBy (fun a b => isAdjacent b a) (first :: g :: rest2) =
          [first] :: chunkBy (fun a b => isAdjacent b a) (g :: rest2) := by
        rw [chunkBy, if_neg hadj]
      rw [hck]
      simp only [List.length_cons]
      omega

/-- C3: the claim says the coalescer's group count equals the number of
meta-groups (maximal chains of pairwise-adjacent consecutive sorted groups),
and in particular that an empty input yields 0.  The code returns
`group_id + 1`, which is the number of meta-groups for every non-empty input
but `1` (not `0`) for the empty input: `max 1 (number of meta-groups)`.
The first conjunct evaluates the code at the failing input. -/
theorem claim_C3_coalesce_count :
    (coalesce_false_row_groups []).2 = 1
    ∧ ∀ false_rows : List (List RowLocation),
        (coalesce_false_row_groups false_rows).2 =
          max 1 (chunkBy (fun a b => isAdjacent b a)
            (sortBy locListLe false_rows)).length := by
  refine ⟨rfl, ?_⟩
  intro false_rows
  rw [coalesce_false_row_groups]
  cases hs : sortBy locListLe false_rows with
  | nil => rfl
  | cons first rest =>
    simp only
    rw [coalesce_count rest first [] 0 first]
    obtain ⟨d, ds, hd⟩ :=
      chunkBy_cons_head (fun a b => isAdjacent b a) rest first
    rw [hd]
    rw [max_eq_right (by simp)]
    omega
